import Mathlib

/-!
Shallow embedding of the `flying-pathfinding` repository and a verification of
its specification claims.

Source files embedded:
* `src/lib.rs`         — the bit-packed occupancy `Grid` with its binary format
* `src/pathfinding.rs` — the generic best-first search `find_path`
* `src/provider.rs`    — the chunked `FolderGridProvider` obstacle lookup

Modelling conventions:
* Machine integers (`u32`, `usize`) are `Nat` with explicit `% 2 ^ 32` where the
  source performs wrapping `u32` arithmetic.
* `f32` values used as search costs are `Option ℚ`, with `none` standing for
  NaN; `f32` addition on finite small values is exact, so `ℚ` addition models it.
* Integer-to-`f32` casts of bit-array lengths are modelled by `f32round`
  (round to nearest, ties to even), which is exact below `2 ^ 24`.
* A Rust `assert!` failure, an `unwrap` of `None`, and any other process abort
  is modelled as `none` / `.error ()` / `.panic` of the embedding function.
* File I/O is abstracted to byte lists: a file is `List Nat` (each entry a
  byte) and a file system is a partial map from names to byte lists.
-/

namespace FlyingPathfinding

/-- Distance between adjacent `f32` values at magnitude `n`, for
`2 ^ 24 < n < 2 ^ 32` (the only range where a `u32`-to-`f32` cast rounds). -/
def f32ulp (n : Nat) : Nat :=
  if n < 2 ^ 25 then 2
  else if n < 2 ^ 26 then 4
  else if n < 2 ^ 27 then 8
  else if n < 2 ^ 28 then 16
  else if n < 2 ^ 29 then 32
  else if n < 2 ^ 30 then 64
  else if n < 2 ^ 31 then 128
  else 256

/-- Round a natural number below `2 ^ 32` to the nearest value representable
in `f32` (round to nearest, ties to even), modelling Rust's
integer-to-`f32` cast `length as f32`.  The result equals `n` whenever
`n ≤ 2 ^ 24`. -/
def f32round (n : Nat) : Nat :=
  if n ≤ 2 ^ 24 then n
  else
    let ulp := f32ulp n
    let q := n / ulp
    let r := n % ulp
    if 2 * r < ulp then q * ulp
    else if ulp < 2 * r then (q + 1) * ulp
    else if q % 2 = 0 then q * ulp else (q + 1) * ulp

/-- Models `(length as f32 / 8.0).ceil() as usize` from `Grid::new` and
`Grid::import`: the division by `8.0` and the ceiling are exact in `f32`
(the operand is a float whose significand fits), so only the initial
integer-to-float rounding `f32round` matters. -/
def gridBytes (len : Nat) : Nat := (f32round len + 7) / 8

/-- Models `((length as f32 / 8.0).ceil() * 8.0) as usize` from `Grid::new`
(the multiplication by `8.0` is exact in `f32`). -/
def paddedBits (len : Nat) : Nat := 8 * gridBytes len

/-- Models `struct Grid` from `src/lib.rs`: `width`/`height` are `u32` values
(kept as `Nat`, always `< 2 ^ 32` for grids the code can build) and `data` is
the `BitVec<Lsb0, u8>` bit array, one `Bool` per bit. -/
structure Grid where
  width : Nat
  height : Nat
  data : List Bool
deriving DecidableEq

/-- Models `Grid::new`: `let length = (width * width * height) as usize`
(wrapping `u32` multiplication) and a bit array of `length` rounded up to a
byte boundary, all bits false. -/
def Grid.new (width height : Nat) : Grid :=
  ⟨width, height, List.replicate (paddedBits ((width * width * height) % 2 ^ 32)) false⟩

/-- Models `Grid::index`.  `none` models a failed `assert!` (process abort).
Faithful to the source: all three coordinates, including `z`, are asserted to
be `< width` (the third assertion reads `assert!(width > z, "Z-axis …")`). -/
def Grid.index (x y z width : Nat) : Option Nat :=
  if x < width ∧ y < width ∧ z < width then some (x + width * (y + width * z)) else none

/-- Models `Grid::set_obstacle`: compute the flattened index (possibly
aborting) and set that bit.  The source uses `set_unchecked`; for every state
the code actually builds the index is inside the allocated padded bit array,
and `List.set` is the in-bounds write. -/
def Grid.set_obstacle (g : Grid) (x y z : Nat) : Option Grid :=
  (Grid.index x y z g.width).map fun i => ⟨g.width, g.height, g.data.set i true⟩

/-- Models `Grid::is_obstacle`: compute the flattened index (possibly
aborting) and read that bit.  The source uses `get_unchecked`; reads inside
the allocated padded array return the stored bit, modelled by `getD _ false`
(padding bits of a grid built by `new` are false). -/
def Grid.is_obstacle (g : Grid) (x y z : Nat) : Option Bool :=
  (Grid.index x y z g.width).map fun i => g.data.getD i false

/-- One byte from up to-8 bits, LSB-first (`bitvec`'s `Lsb0` order):
bit `i` of the byte is element `i` of the list. -/
def bitsToByte (bits : List Bool) : Nat :=
  bits.foldr (fun b acc => (if b then 1 else 0) + 2 * acc) 0

/-- Models `BitVec::<Lsb0, u8>::as_slice`: chunk the bit array into bytes,
LSB-first within each byte (a trailing chunk of fewer than 8 bits becomes a
final zero-padded byte). -/
def bitsToBytes : List Bool → List Nat
  | [] => []
  | b0 :: b1 :: b2 :: b3 :: b4 :: b5 :: b6 :: b7 :: rest =>
    bitsToByte [b0, b1, b2, b3, b4, b5, b6, b7] :: bitsToBytes rest
  | bits => [bitsToByte bits]

/-- The 8 bits of one byte, LSB-first. -/
def byteToBits (n : Nat) : List Bool :=
  (List.range 8).map fun i => n.testBit i

/-- Models `BitVec::<Lsb0, u8>::from_vec`: all bits of the byte list,
LSB-first within each byte. -/
def bytesToBits (l : List Nat) : List Bool :=
  (l.map byteToBits).flatten

/-- Big-endian encoding of a `u32`, as written by `write_u32::<BigEndian>`. -/
def be32 (n : Nat) : List Nat :=
  [n / 2 ^ 24 % 256, n / 2 ^ 16 % 256, n / 2 ^ 8 % 256, n % 256]

/-- Models `read_u32::<BigEndian>`: consume 4 bytes, failing (I/O error) when
fewer than 4 remain. -/
def readBE32 : List Nat → Option (Nat × List Nat)
  | a :: b :: c :: d :: rest => some (((a * 256 + b) * 256 + c) * 256 + d, rest)
  | _ => none

/-- Models `Grid::export`: the two big-endian `u32` headers followed by the
raw packed bytes.  The file is the produced byte list. -/
def Grid.exportBytes (g : Grid) : List Nat :=
  be32 g.width ++ (be32 g.height ++ bitsToBytes g.data)

/-- Models `Grid::import` on a file given as a byte list: read two big-endian
`u32`s, then `read_exact` a buffer of `(length as f32 / 8.0).ceil()` bytes
(`length` is the wrapping `u32` product `width * width * height`), failing
(I/O error, `none`) when the file is too short. -/
def Grid.importBytes (file : List Nat) : Option Grid :=
  match readBE32 file with
  | none => none
  | some (width, r1) =>
    match readBE32 r1 with
    | none => none
    | some (height, r2) =>
      if r2.length < gridBytes ((width * width * height) % 2 ^ 32) then none
      else some ⟨width, height, bytesToBits (r2.take (gridBytes ((width * width * height) % 2 ^ 32)))⟩

/-! ## Search engine (`src/pathfinding.rs`)

`f32` search costs are modelled as `Option ℚ`: `none` is NaN, `some q` a
finite value (additions the search performs on the small costs occurring in
the claims are exact in `f32`). -/

/-- `f32` addition on costs: NaN (`none`) propagates. -/
def fadd (a b : Option ℚ) : Option ℚ :=
  match a, b with
  | some x, some y => some (x + y)
  | _, _ => none

/-- `f32::partial_cmp`: `none` (no ordering) when either operand is NaN. -/
def fcmp (a b : Option ℚ) : Option Ordering :=
  match a, b with
  | some x, some y => some (if x < y then .lt else if y < x then .gt else .eq)
  | _, _ => none

/-- `f32` strict `>` comparison: false when either operand is NaN. -/
def fgt (a b : Option ℚ) : Bool :=
  match a, b with
  | some x, some y => decide (y < x)
  | _, _ => false

/-- Models `struct Node<L>` from `src/pathfinding.rs`. -/
structure Node (L : Type) where
  local_vector : L
  cost : Option ℚ
  estimated_cost : Option ℚ
  previous_node_index : Nat
deriving DecidableEq

/-- The total priority `cost + estimated_cost` used by the `Node` ordering. -/
def Node.total {L : Type} (n : Node L) : Option ℚ := fadd n.cost n.estimated_cost

/-- Models `impl Ord for Node` (via its `PartialOrd`):
`total_cost2.partial_cmp(&total_cost1)` — the comparison of the summed
priorities with the operands swapped, so the `BinaryHeap` max-heap pops the
node of least total priority.  `none` models the `.unwrap()` panic that a NaN
total causes. -/
def nodeCmp {L : Type} (a b : Node L) : Option Ordering :=
  fcmp (Node.total b) (Node.total a)

/-- Models the `LocalVectorProvider` trait together with the `Distance` bound
on `L` from `src/pathfinding.rs`.  `G` stands for the global `Vector3<f32>`
type. -/
structure Provider (L G : Type) where
  get_local_vector : G → Option L
  get_adjacent_vectors : L → List (L × Option ℚ)
  to_global_vector : L → G
  distance : L → L → Option ℚ

/-- The possible observable outcomes of a `find_path` call:
`ok`/`noPath`/`unresolvedGlobalVector` are the source's
`Ok`/`Err(NoPath)`/`Err(UnresolvedGlobalVector)`; `running` means the search
loop has not finished within the given number of iterations; `panic` models a
process abort (a failed `unwrap`). -/
inductive Outcome (G : Type) where
  | ok (path : List G)
  | noPath
  | unresolvedGlobalVector
  | running
  | panic
deriving DecidableEq

/-- Selection scan behind `heapPop`: returns a node of the heap that is
maximal for the `Node` ordering (replacing the running best exactly when the
comparison answers `lt`), together with the remaining nodes.  `.error ()`
models the panic of `Ord::cmp` when a comparison involves NaN. -/
def heapPopGo {L : Type} (best : Node L) (acc : List (Node L)) :
    List (Node L) → Except Unit (Node L × List (Node L))
  | [] => .ok (best, acc.reverse)
  | y :: ys =>
    match nodeCmp best y with
    | none => .error ()
    | some Ordering.lt => heapPopGo y (best :: acc) ys
    | some _ => heapPopGo best (y :: acc) ys

/-- Models `BinaryHeap::pop` by its contract: on a non-empty heap it removes
and returns a greatest element under the `Node` ordering (ties broken by heap
discipline, here deterministically by position); comparisons go through
`nodeCmp`, whose NaN case is the source's `partial_cmp(..).unwrap()` panic. -/
def heapPop {L : Type} : List (Node L) → Except Unit (Option (Node L × List (Node L)))
  | [] => .ok none
  | x :: xs => (heapPopGo x [] xs).map some

/-- `IndexSet::contains` specialised to the `Node` equality of the source,
which compares only `local_vector`. -/
def containsVec {L : Type} [DecidableEq L] (s : List (Node L)) (v : L) : Bool :=
  s.any fun m => decide (m.local_vector = v)

/-- Position of the first node with the given `local_vector`, if any. -/
def findVecIdx {L : Type} [DecidableEq L] (v : L) : List (Node L) → Option Nat
  | [] => none
  | m :: rest =>
    if m.local_vector = v then some 0 else (findVecIdx v rest).map (· + 1)

/-- Models `IndexSet::insert_full`: the insertion-ordered explored set keyed
by the `Node` equality (`local_vector` only).  Returns the element's index
(existing index when already present, else the append position) and the
updated set. -/
def insertFull {L : Type} [DecidableEq L] (s : List (Node L)) (n : Node L) :
    Nat × List (Node L) :=
  match findVecIdx n.local_vector s with
  | some i => (i, s)
  | none => (s.length, s ++ [n])

/-- Models the neighbour-node construction of the `find_path` expansion loop
(`src/pathfinding.rs` lines 77–92): the node is built with the raw step
`cost`, then `new_cost = current.cost + cost` replaces it only when
`adjacent_node.cost > new_cost` (an `f32` comparison, false on NaN). -/
def mkAdjacentNode {L : Type} (current : Node L) (adjacent_local_vector : L)
    (cost : Option ℚ) (estimated_distance : Option ℚ) (explored_node_index : Nat) :
    Node L :=
  let adjacent_node : Node L :=
    ⟨adjacent_local_vector, cost, estimated_distance, explored_node_index⟩
  let new_cost := fadd current.cost cost
  if fgt adjacent_node.cost new_cost then
    { adjacent_node with cost := new_cost }
  else adjacent_node

/-- Models the `for` loop over `get_adjacent_vectors(&current.local_vector)`:
each neighbour gets its heuristic distance to the goal, is skipped when the
explored set already contains its location, and is otherwise pushed (in
order) after the cost adjustment of `mkAdjacentNode`. -/
def expand {L G : Type} [DecidableEq L] (prov : Provider L G) (goal_local_vector : L)
    (current : Node L) (explored : List (Node L)) (explored_node_index : Nat) :
    List (Node L) :=
  (prov.get_adjacent_vectors current.local_vector).filterMap fun p =>
    if containsVec explored p.1 then none
    else
      some (mkAdjacentNode current p.1 p.2 (prov.distance p.1 goal_local_vector)
        explored_node_index)

/-- Models `reconstruct_path`: push the node's global vector, stop when the
back-pointer is the sentinel `0`, otherwise recurse on
`explored.get_index(previous_node_index).unwrap()`.  `.error ()` models both
the `unwrap` panic on an invalid index and the non-termination of a cyclic
chain (impossible in reachable states); the fuel passed by `searchLoop`
always covers the chain. -/
def reconstruct_path {L G : Type} (prov : Provider L G) (explored : List (Node L)) :
    Nat → Node L → Except Unit (List G)
  | 0, _ => .error ()
  | fuel + 1, node =>
    let g := prov.to_global_vector node.local_vector
    if node.previous_node_index = 0 then .ok [g]
    else
      match explored.get? node.previous_node_index with
      | none => .error ()
      | some previous_node =>
        (reconstruct_path prov explored fuel previous_node).map (g :: ·)

/-- Models the `while let Some(current) = reachable.pop()` loop of
`find_path`, with an explicit iteration budget (`.running` when the budget is
exhausted with the loop still going): pop the top node; on the goal,
reconstruct (the fuel `explored.length + 1` bounds every reachable
back-pointer chain) and reverse; otherwise insert the node into the explored
set and push the surviving neighbours. -/
def searchLoop {L G : Type} [DecidableEq L] (prov : Provider L G) (goal_local_vector : L) :
    Nat → List (Node L) → List (Node L) → Outcome G
  | 0, _, _ => .running
  | fuel + 1, reachable, explored =>
    match heapPop reachable with
    | .error _ => .panic
    | .ok none => .noPath
    | .ok (some (current, rest)) =>
      if current.local_vector = goal_local_vector then
        match reconstruct_path prov explored (explored.length + 1) current with
        | .error _ => .panic
        | .ok path => .ok path.reverse
      else
        let r := insertFull explored current
        searchLoop prov goal_local_vector fuel
          (rest ++ expand prov goal_local_vector current r.2 r.1) r.2

/-- Models `find_path` from `src/pathfinding.rs`: resolve start and goal to
local vectors (`Err(UnresolvedGlobalVector)` when either fails), seed the
frontier with the start node (`cost = 0`, `estimated_cost` the heuristic
distance to the goal, back-pointer `0`) and run the search loop for at most
`fuel` iterations. -/
def find_path {L G : Type} [DecidableEq L] (fuel : Nat) (start goal : G)
    (local_vector_provider : Provider L G) : Outcome G :=
  match local_vector_provider.get_local_vector start,
      local_vector_provider.get_local_vector goal with
  | some start_local_vector, some goal_local_vector =>
    searchLoop local_vector_provider goal_local_vector fuel
      [⟨start_local_vector, some 0,
        local_vector_provider.distance start_local_vector goal_local_vector, 0⟩] []
  | _, _ => .unresolvedGlobalVector

/-! ## Chunked grid lookup (`src/provider.rs`)

World coordinates (`f32`) are modelled as `ℚ`; the caller-supplied axis and
naming functions are fields; the folder of grid files is a partial map from
file names to file contents. -/

/-- Models `f32::round`: round half away from zero, as an integer. -/
def rustRound (q : ℚ) : ℤ :=
  if 0 ≤ q then ⌊q + 1 / 2⌋ else -⌊-q + 1 / 2⌋

/-- Models the saturating `as u32` cast of an (integral) `f32` value:
negative values clamp to `0`, values beyond `u32::MAX` clamp to it. -/
def f32toU32 (z : ℤ) : Nat :=
  if z < 0 then 0 else min z.toNat (2 ^ 32 - 1)

/-- Models `FolderGridProvider`: the three caller-supplied functions plus the
grid folder, the latter abstracted as the map `files` from a file name to the
bytes of that file (`none` = missing/unreadable file). -/
structure FolderGridProvider where
  axis_to_grid_id : ℚ → Nat
  grid_id_to_axis : Nat → ℚ
  grid_file_name : Nat → Nat → String
  files : String → Option (List Nat)

/-- The chunk-import step of `FolderGridProvider::is_obstacle`: resolve the
chunk file of the point and run `Grid::import` on it; `none` is the `Err`
case (missing file or import failure). -/
def chunkImport (p : FolderGridProvider) (vx vy : ℚ) : Option Grid :=
  (p.files (p.grid_file_name (p.axis_to_grid_id vx) (p.axis_to_grid_id vy))).bind
    Grid.importBytes

/-- Models `FolderGridProvider::is_obstacle` on the world point
`(vx, vy, vz)`: on `Ok(grid)` with `vector.z` within `[0, grid.height]`,
derive the local voxel via `grid_id_to_axis`, `round` and the saturating
`as u32` casts and delegate to `Grid::is_obstacle` (whose assertion abort is
`none`); every other case is `false`. -/
def FolderGridProvider.is_obstacle (p : FolderGridProvider) (vx vy vz : ℚ) :
    Option Bool :=
  match chunkImport p vx vy with
  | some grid =>
    if 0 ≤ vz ∧ vz ≤ (grid.height : ℚ) then
      let x := f32toU32 (rustRound (p.grid_id_to_axis (p.axis_to_grid_id vx) - vx))
      let y := f32toU32 (rustRound (p.grid_id_to_axis (p.axis_to_grid_id vy) - vy))
      let z := f32toU32 (rustRound vz)
      grid.is_obstacle x y z
    else some false
  | none => some false

/-! ## Concrete instances used by counterexamples and witnesses -/

/-- A straight-line provider on `ℤ` (global = local = `ℤ`): the only
neighbour of `v` is `v + 1` at unit step cost, the heuristic is the absolute
distance.  Mirrors the structure of the repository's test providers. -/
def chainProv : Provider ℤ ℤ where
  get_local_vector := fun g => some g
  get_adjacent_vectors := fun v => [(v + 1, some 1)]
  to_global_vector := fun l => l
  distance := fun a b => some ((a - b).natAbs : ℚ)

/-- A provider whose heuristic distance is always NaN and that yields two
neighbours, so that a frontier comparison between two NaN-priority nodes
occurs. -/
def nanProv : Provider ℤ ℤ where
  get_local_vector := fun g => some g
  get_adjacent_vectors := fun v => [(v + 1, some 1), (v + 2, some 1)]
  to_global_vector := fun l => l
  distance := fun _ _ => none

/-- A 2×2×2 chunk file: header `width = 2`, `height = 2`, one body byte with
bit 6 set — the voxel at flattened index `0 + 2*(1 + 2*1) = 6`, i.e.
`(x, y, z) = (0, 1, 1)`. -/
def g10bytes : List Nat := [0, 0, 0, 2, 0, 0, 0, 2, 64]

/-- A `FolderGridProvider` whose single chunk `(0,0)` (covering every world
point, origin `0` on both axes) is the file `g10bytes`. -/
def p10 : FolderGridProvider where
  axis_to_grid_id := fun _ => 0
  grid_id_to_axis := fun _ => 0
  grid_file_name := fun _ _ => "g"
  files := fun s => if s = "g" then some g10bytes else none

/-! ## Serialization lemmas -/

/-- Packing eight bits into a byte and unpacking is the identity. -/
theorem byteToBits_bitsToByte (b0 b1 b2 b3 b4 b5 b6 b7 : Bool) :
    byteToBits (bitsToByte [b0, b1, b2, b3, b4, b5, b6, b7]) =
      [b0, b1, b2, b3, b4, b5, b6, b7] := by
  revert b0 b1 b2 b3 b4 b5 b6 b7
  decide

/-- For a bit array of byte-aligned length, `bitsToBytes` produces exactly
`length / 8` bytes and `bytesToBits` recovers the bits. -/
theorem bitsToBytes_spec :
    ∀ (n : Nat) (bits : List Bool), bits.length = 8 * n →
      (bitsToBytes bits).length = n ∧ bytesToBits (bitsToBytes bits) = bits := by
  intro n
  induction n with
  | zero =>
    intro bits hlen
    have hnil : bits = [] := List.eq_nil_of_length_eq_zero (by omega)
    subst hnil
    exact ⟨rfl, rfl⟩
  | succ k ih =>
    intro bits hlen
    rcases bits with _ | ⟨b0, bits⟩; · simp at hlen
    rcases bits with _ | ⟨b1, bits⟩; · simp at hlen; omega
    rcases bits with _ | ⟨b2, bits⟩; · simp at hlen; omega
    rcases bits with _ | ⟨b3, bits⟩; · simp at hlen; omega
    rcases bits with _ | ⟨b4, bits⟩; · simp at hlen; omega
    rcases bits with _ | ⟨b5, bits⟩; · simp at hlen; omega
    rcases bits with _ | ⟨b6, bits⟩; · simp at hlen; omega
    rcases bits with _ | ⟨b7, bits⟩; · simp at hlen; omega
    have hrest : bits.length = 8 * k := by simp at hlen; omega
    obtain ⟨ih1, ih2⟩ := ih bits hrest
    refine ⟨by simp [bitsToBytes, ih1], ?_⟩
    show bytesToBits (bitsToByte [b0, b1, b2, b3, b4, b5, b6, b7] :: bitsToBytes bits) = _
    unfold bytesToBits at ih2 ⊢
    simp only [List.map_cons, List.flatten_cons, byteToBits_bitsToByte, ih2]
    rfl

/-- Reading back a big-endian `u32` written in front of a rest. -/
theorem readBE32_be32 (n : Nat) (hn : n < 2 ^ 32) (rest : List Nat) :
    readBE32 (be32 n ++ rest) = some (n, rest) := by
  simp only [be32, List.cons_append, List.nil_append, readBE32, Option.some.injEq,
    Prod.mk.injEq, and_true]
  norm_num
  omega

/-- What `Grid::import` does on a file of the shape
`header(width) ++ header(height) ++ body`: succeed exactly when the body has
at least `gridBytes` bytes, taking exactly that many as the bit array. -/
theorem importBytes_spec (w h : Nat) (hw : w < 2 ^ 32) (hh : h < 2 ^ 32)
    (rest : List Nat) :
    Grid.importBytes (be32 w ++ (be32 h ++ rest)) =
      if rest.length < gridBytes ((w * w * h) % 2 ^ 32) then none
      else some ⟨w, h, bytesToBits (rest.take (gridBytes ((w * w * h) % 2 ^ 32)))⟩ := by
  unfold Grid.importBytes
  rw [readBE32_be32 w hw]
  dsimp only
  rw [readBE32_be32 h hh]

/-- `read_u32` fails on fewer than 4 bytes. -/
theorem readBE32_short (l : List Nat) (hl : l.length < 4) : readBE32 l = none := by
  match l, hl with
  | [], _ => rfl
  | [a], _ => rfl
  | [a, b], _ => rfl
  | [a, b, c], _ => rfl
  | a :: b :: c :: d :: r, hl =>
    simp only [List.length_cons] at hl
    omega

/-- A successful `read_u32` consumes exactly 4 bytes. -/
theorem readBE32_length (l : List Nat) (n : Nat) (r : List Nat)
    (hr : readBE32 l = some (n, r)) : r.length = l.length - 4 := by
  match l, hr with
  | a :: b :: c :: d :: s, hr =>
    simp only [readBE32, Option.some.injEq, Prod.mk.injEq] at hr
    simp [← hr.2]

/-! ## Frontier lemmas -/

/-- The selection scan of `heapPop` returns an element of the scanned
collection whose total priority is least among the running best and every
scanned node (when all totals are finite). -/
theorem heapPopGo_min {L : Type} :
    ∀ (l : List (Node L)) (best : Node L) (acc rest : List (Node L)) (n : Node L),
      (Node.total best).isSome = true →
      (∀ m ∈ l, (Node.total m).isSome = true) →
      heapPopGo best acc l = .ok (n, rest) →
      (n = best ∨ n ∈ l) ∧
        ∀ m, (m = best ∨ m ∈ l) →
          ∀ qn qm, Node.total n = some qn → Node.total m = some qm → qn ≤ qm := by
  intro l
  induction l with
  | nil =>
    intro best acc rest n _ _ hrun
    simp only [heapPopGo, Except.ok.injEq, Prod.mk.injEq] at hrun
    obtain ⟨rfl, -⟩ := hrun
    refine ⟨Or.inl rfl, ?_⟩
    rintro m (rfl | hm) qn qm hqn hqm
    · rw [hqn] at hqm
      exact le_of_eq (Option.some.inj hqm)
    · simp at hm
  | cons y ys ih =>
    intro best acc rest n hb hl hrun
    have hy : (Node.total y).isSome = true := hl y (by simp)
    obtain ⟨tb, htb⟩ := Option.isSome_iff_exists.mp hb
    obtain ⟨ty, hty⟩ := Option.isSome_iff_exists.mp hy
    have hys : ∀ m ∈ ys, (Node.total m).isSome = true :=
      fun m hm => hl m (List.mem_cons_of_mem _ hm)
    have hcmp : nodeCmp best y =
        some (if ty < tb then .lt else if tb < ty then .gt else .eq) := by
      unfold nodeCmp fcmp
      rw [htb, hty]
    by_cases hlt : ty < tb
    · rw [if_pos hlt] at hcmp
      rw [heapPopGo, hcmp] at hrun
      obtain ⟨hmem, hmin⟩ := ih y (best :: acc) rest n (by rw [hty]; rfl) hys hrun
      refine ⟨Or.inr (hmem.elim (fun e => e ▸ List.mem_cons_self y ys)
        (List.mem_cons_of_mem y)), ?_⟩
      rintro m (rfl | hm) qn qm hqn hqm
      · have h1 := hmin y (Or.inl rfl) qn ty hqn hty
        rw [htb] at hqm
        exact h1.trans (le_of_lt ((Option.some.inj hqm) ▸ hlt))
      · rcases List.mem_cons.mp hm with rfl | hm'
        · exact hmin m (Or.inl rfl) qn qm hqn hqm
        · exact hmin m (Or.inr hm') qn qm hqn hqm
    · have hkeep : heapPopGo best (y :: acc) ys = .ok (n, rest) := by
        by_cases hgt : tb < ty
        · rw [if_neg hlt, if_pos hgt] at hcmp
          rw [heapPopGo, hcmp] at hrun
          exact hrun
        · rw [if_neg hlt, if_neg hgt] at hcmp
          rw [heapPopGo, hcmp] at hrun
          exact hrun
      obtain ⟨hmem, hmin⟩ := ih best (y :: acc) rest n hb hys hkeep
      have hble : tb ≤ ty := le_of_not_lt hlt
      refine ⟨hmem.elim Or.inl (fun h => Or.inr (List.mem_cons_of_mem y h)), ?_⟩
      rintro m (rfl | hm) qn qm hqn hqm
      · exact hmin m (Or.inl rfl) qn qm hqn hqm
      · rcases List.mem_cons.mp hm with rfl | hm'
        · have h1 := hmin best (Or.inl rfl) qn tb hqn htb
          rw [hty] at hqm
          exact h1.trans ((Option.some.inj hqm) ▸ hble)
        · exact hmin m (Or.inr hm') qn qm hqn hqm

/-! ## Reconstruction lemmas -/

/-- A successful reconstruction starts with the given node's global vector
(the node pushed first, before the back-pointer chain). -/
theorem reconstruct_head {L G : Type} (prov : Provider L G) (explored : List (Node L))
    (fuel : Nat) (node : Node L) (l : List G)
    (hrun : reconstruct_path prov explored fuel node = .ok l) :
    ∃ t, l = prov.to_global_vector node.local_vector :: t := by
  match fuel, hrun with
  | fuel + 1, hrun =>
    rw [reconstruct_path] at hrun
    by_cases h0 : node.previous_node_index = 0
    · rw [if_pos h0] at hrun
      exact ⟨[], (Except.ok.inj hrun).symm⟩
    · rw [if_neg h0] at hrun
      cases hg : explored.get? node.previous_node_index with
      | none => rw [hg] at hrun; exact absurd hrun (by simp)
      | some m =>
        rw [hg] at hrun
        dsimp only at hrun
        cases hr : reconstruct_path prov explored fuel m with
        | error e => rw [hr] at hrun; exact absurd hrun (by simp [Except.map])
        | ok l' =>
          rw [hr] at hrun
          simp only [Except.map, Except.ok.injEq] at hrun
          exact ⟨l', hrun.symm⟩

/-- A successful reconstruction ends at the global vector of a node whose
back-pointer is the sentinel `0`. -/
theorem reconstruct_last {L G : Type} (prov : Provider L G) (explored : List (Node L)) :
    ∀ (fuel : Nat) (node : Node L) (l : List G),
      reconstruct_path prov explored fuel node = .ok l →
      ∃ m : Node L, m.previous_node_index = 0 ∧
        l.getLast? = some (prov.to_global_vector m.local_vector) := by
  intro fuel
  induction fuel with
  | zero => intro node l hrun; exact absurd hrun (by simp [reconstruct_path])
  | succ fuel ih =>
    intro node l hrun
    rw [reconstruct_path] at hrun
    by_cases h0 : node.previous_node_index = 0
    · rw [if_pos h0] at hrun
      obtain rfl := (Except.ok.inj hrun).symm
      exact ⟨node, h0, rfl⟩
    · rw [if_neg h0] at hrun
      cases hg : explored.get? node.previous_node_index with
      | none => rw [hg] at hrun; exact absurd hrun (by simp)
      | some prev =>
        rw [hg] at hrun
        dsimp only at hrun
        cases hr : reconstruct_path prov explored fuel prev with
        | error e => rw [hr] at hrun; exact absurd hrun (by simp [Except.map])
        | ok l' =>
          rw [hr] at hrun
          simp only [Except.map, Except.ok.injEq] at hrun
          obtain ⟨m, hm0, hml⟩ := ih prev l' hr
          obtain ⟨t, rfl⟩ := reconstruct_head prov explored fuel prev l' hr
          refine ⟨m, hm0, ?_⟩
          rw [← hrun]
          rw [List.getLast?_cons_cons]
          exact hml

/-- A successful search loop run ends in a reconstruction at a node whose
location is the goal's, reversed. -/
theorem searchLoop_ok_shape {L G : Type} [DecidableEq L] (prov : Provider L G)
    (goal_local_vector : L) :
    ∀ (fuel : Nat) (heap explored : List (Node L)) (path : List G),
      searchLoop prov goal_local_vector fuel heap explored = .ok path →
      ∃ (cur : Node L) (ex : List (Node L)) (l : List G),
        cur.local_vector = goal_local_vector ∧
          reconstruct_path prov ex (ex.length + 1) cur = .ok l ∧ path = l.reverse := by
  intro fuel
  induction fuel with
  | zero => intro heap explored path hrun; exact absurd hrun (by simp [searchLoop])
  | succ fuel ih =>
    intro heap explored path hrun
    rw [searchLoop] at hrun
    cases hp : heapPop heap with
    | error e => rw [hp] at hrun; exact absurd hrun (by simp)
    | ok o =>
      rw [hp] at hrun
      cases o with
      | none => exact absurd hrun (by simp)
      | some pr =>
        obtain ⟨current, rest⟩ := pr
        dsimp only at hrun
        by_cases hgoal : current.local_vector = goal_local_vector
        · rw [if_pos hgoal] at hrun
          cases hr : reconstruct_path prov explored (explored.length + 1) current with
          | error e => rw [hr] at hrun; exact absurd hrun (by simp)
          | ok l =>
            rw [hr] at hrun
            exact ⟨current, explored, l, hgoal, hr, (Outcome.ok.inj hrun).symm⟩
        · rw [if_neg hgoal] at hrun
          exact ih _ _ _ hrun

/-! ## Panic-freedom lemmas -/

/-- `fgt` answers `true` only on two finite operands. -/
theorem fgt_true_isSome {a b : Option ℚ} (h : fgt a b = true) :
    a.isSome = true ∧ b.isSome = true := by
  cases a with
  | none => exact absurd h (by simp [fgt])
  | some x =>
    cases b with
    | none => exact absurd h (by simp [fgt])
    | some y => exact ⟨rfl, rfl⟩

/-- Every node built by the expansion loop has a finite (non-NaN) cost and
heuristic and carries the supplied explored index as back-pointer, provided
the provider's heuristic and step costs are finite. -/
theorem expand_mem {L G : Type} [DecidableEq L] (prov : Provider L G)
    (goal_local_vector : L) (current : Node L) (explored : List (Node L)) (idx : Nat)
    (hdist : ∀ a b, (prov.distance a b).isSome = true)
    (hcost : ∀ v p, p ∈ prov.get_adjacent_vectors v → p.2.isSome = true) :
    ∀ n ∈ expand prov goal_local_vector current explored idx,
      n.cost.isSome = true ∧ n.estimated_cost.isSome = true ∧
        n.previous_node_index = idx := by
  intro n hn
  obtain ⟨p, hp, hmk⟩ := List.mem_filterMap.mp hn
  by_cases hc : containsVec explored p.1
  · rw [if_pos hc] at hmk; exact absurd hmk (by simp)
  · rw [if_neg hc] at hmk
    obtain rfl := Option.some.inj hmk
    unfold mkAdjacentNode
    by_cases hg : fgt p.2 (fadd current.cost p.2)
    · rw [if_pos hg]
      exact ⟨(fgt_true_isSome hg).2, hdist p.1 goal_local_vector, rfl⟩
    · rw [if_neg hg]
      exact ⟨hcost current.local_vector p hp, hdist p.1 goal_local_vector, rfl⟩

/-- The selection scan succeeds (no NaN panic) when every involved total is
finite, and returns a node and a remainder drawn from the scanned nodes. -/
theorem heapPopGo_ok {L : Type} :
    ∀ (l : List (Node L)) (best : Node L) (acc : List (Node L)),
      (Node.total best).isSome = true →
      (∀ m ∈ l, (Node.total m).isSome = true) →
      ∃ n rest, heapPopGo best acc l = .ok (n, rest) ∧
        n ∈ best :: (acc ++ l) ∧ ∀ m ∈ rest, m ∈ best :: (acc ++ l) := by
  intro l
  induction l with
  | nil =>
    intro best acc hb _
    refine ⟨best, acc.reverse, rfl, by simp, ?_⟩
    intro m hm
    simp only [List.mem_reverse] at hm
    simp [hm]
  | cons y ys ih =>
    intro best acc hb hl
    have hy : (Node.total y).isSome = true := hl y (by simp)
    obtain ⟨tb, htb⟩ := Option.isSome_iff_exists.mp hb
    obtain ⟨ty, hty⟩ := Option.isSome_iff_exists.mp hy
    have hys : ∀ m ∈ ys, (Node.total m).isSome = true :=
      fun m hm => hl m (List.mem_cons_of_mem _ hm)
    have hcmp : nodeCmp best y =
        some (if ty < tb then .lt else if tb < ty then .gt else .eq) := by
      unfold nodeCmp fcmp
      rw [htb, hty]
    by_cases hlt : ty < tb
    · rw [if_pos hlt] at hcmp
      obtain ⟨n, rest, hrun, hn, hrest⟩ := ih y (best :: acc) (by rw [hty]; rfl) hys
      refine ⟨n, rest, ?_, ?_, ?_⟩
      · rw [heapPopGo, hcmp]; exact hrun
      · simp only [List.mem_cons, List.mem_append] at hn ⊢; tauto
      · intro m hm
        have := hrest m hm
        simp only [List.mem_cons, List.mem_append] at this ⊢; tauto
    · have step : ∀ res, heapPopGo best (y :: acc) ys = res →
          heapPopGo best acc (y :: ys) = res := by
        intro res hres
        by_cases hgt : tb < ty
        · rw [if_neg hlt, if_pos hgt] at hcmp
          rw [heapPopGo, hcmp]; exact hres
        · rw [if_neg hlt, if_neg hgt] at hcmp
          rw [heapPopGo, hcmp]; exact hres
      obtain ⟨n, rest, hrun, hn, hrest⟩ := ih best (y :: acc) hb hys
      refine ⟨n, rest, step _ hrun, ?_, ?_⟩
      · simp only [List.mem_cons, List.mem_append] at hn ⊢; tauto
      · intro m hm
        have := hrest m hm
        simp only [List.mem_cons, List.mem_append] at this ⊢; tauto

/-- `findVecIdx` only returns positions inside the list. -/
theorem findVecIdx_lt {L : Type} [DecidableEq L] (v : L) :
    ∀ (s : List (Node L)) (i : Nat), findVecIdx v s = some i → i < s.length := by
  intro s
  induction s with
  | nil => intro i h; exact absurd h (by simp [findVecIdx])
  | cons m rest ih =>
    intro i h
    rw [findVecIdx] at h
    by_cases hm : m.local_vector = v
    · rw [if_pos hm] at h
      obtain rfl := Option.some.inj h
      simp
    · rw [if_neg hm] at h
      cases hf : findVecIdx v rest with
      | none => rw [hf] at h; exact absurd h (by simp)
      | some j =>
        rw [hf] at h
        obtain rfl := Option.some.inj h.symm
        have := ih j hf
        simp only [List.length_cons]
        omega

/-- `insert_full` returns an index inside the updated set, does not shrink
the set, preserves existing entries, and preserves the decreasing
back-pointer invariant when the inserted node's back-pointer is below the old
length. -/
theorem insertFull_spec {L : Type} [DecidableEq L] (s : List (Node L)) (n : Node L) :
    (insertFull s n).1 < (insertFull s n).2.length ∧
      s.length ≤ (insertFull s n).2.length ∧
      (∀ i m, s.get? i = some m → (insertFull s n).2.get? i = some m) ∧
      ((∀ i m, s.get? i = some m →
          m.previous_node_index = 0 ∨ m.previous_node_index < i) →
        (n.previous_node_index = 0 ∨ n.previous_node_index < s.length) →
        ∀ i m, (insertFull s n).2.get? i = some m →
          m.previous_node_index = 0 ∨ m.previous_node_index < i) := by
  unfold insertFull
  cases hf : findVecIdx n.local_vector s with
  | some j =>
    dsimp only
    exact ⟨findVecIdx_lt _ s j hf, le_refl _, fun i m hm => hm, fun hinv _ => hinv⟩
  | none =>
    dsimp only
    have hkeep : ∀ i m, s.get? i = some m → (s ++ [n]).get? i = some m := by
      intro i m hm
      have hi : i < s.length := by
        by_contra hge
        rw [List.get?_eq_none.mpr (le_of_not_lt hge)] at hm
        exact absurd hm (by simp)
      rw [List.get?_append hi]
      exact hm
    refine ⟨by simp, by simp, hkeep, ?_⟩
    intro hinv hn i m hm
    by_cases hi : i < s.length
    · rw [List.get?_append hi] at hm
      exact hinv i m hm
    · have hlen : (s ++ [n]).length = s.length + 1 := by simp
      have hi2 : i = s.length := by
        by_contra hne
        have : (s ++ [n]).length ≤ i := by omega
        rw [List.get?_eq_none.mpr this] at hm
        exact absurd hm (by simp)
      subst hi2
      have : (s ++ [n]).get? s.length = some n := by
        rw [List.get?_append_right (le_refl _)]
        simp
      rw [this] at hm
      obtain rfl := Option.some.inj hm
      omega

/-- With a decreasing back-pointer invariant on the explored set,
reconstruction succeeds whenever the fuel exceeds the starting index bound
(no `unwrap` panic, no runaway recursion). -/
theorem reconstruct_ok {L G : Type} (prov : Provider L G) (explored : List (Node L))
    (hinv : ∀ i n, explored.get? i = some n →
      n.previous_node_index = 0 ∨ n.previous_node_index < i) :
    ∀ (k : Nat), k ≤ explored.length →
      ∀ (fuel : Nat) (node : Node L), k + 1 ≤ fuel →
        (node.previous_node_index = 0 ∨ node.previous_node_index < k) →
        ∃ l, reconstruct_path prov explored fuel node = .ok l := by
  intro k
  induction k with
  | zero =>
    intro _ fuel node hfuel h0
    obtain ⟨fuel, rfl⟩ : ∃ f, fuel = f + 1 := ⟨fuel - 1, by omega⟩
    have : node.previous_node_index = 0 := by omega
    exact ⟨[prov.to_global_vector node.local_vector], by rw [reconstruct_path, if_pos this]⟩
  | succ k ih =>
    intro hk fuel node hfuel hprev
    obtain ⟨fuel, rfl⟩ : ∃ f, fuel = f + 1 := ⟨fuel - 1, by omega⟩
    by_cases h0 : node.previous_node_index = 0
    · exact ⟨[prov.to_global_vector node.local_vector], by rw [reconstruct_path, if_pos h0]⟩
    · have hlt : node.previous_node_index < k + 1 := by omega
      have hidx : node.previous_node_index < explored.length := by omega
      cases hg : explored.get? node.previous_node_index with
      | none =>
        have := List.get?_eq_none.mp hg
        omega
      | some prev =>
        have hprev2 : prev.previous_node_index = 0 ∨ prev.previous_node_index < k := by
          rcases hinv _ _ hg with h | h
          · exact Or.inl h
          · right; omega
        obtain ⟨l, hl⟩ := ih (by omega) fuel prev (by omega) hprev2
        refine ⟨prov.to_global_vector node.local_vector :: l, ?_⟩
        rw [reconstruct_path, if_neg h0, hg]
        dsimp only
        rw [hl]
        rfl

/-- A node with finite cost and heuristic has a finite total priority. -/
theorem total_isSome {L : Type} (n : Node L) (hc : n.cost.isSome = true)
    (he : n.estimated_cost.isSome = true) : (Node.total n).isSome = true := by
  obtain ⟨c, hc'⟩ := Option.isSome_iff_exists.mp hc
  obtain ⟨e, he'⟩ := Option.isSome_iff_exists.mp he
  unfold Node.total fadd
  rw [hc', he']
  rfl

/-- The search loop never reaches the `panic` outcome when the provider's
heuristic and step costs are finite and the frontier/explored invariants
hold: every frontier total is finite and every back-pointer is the sentinel
or a valid, strictly smaller explored index. -/
theorem searchLoop_no_panic {L G : Type} [DecidableEq L] (prov : Provider L G)
    (goal_local_vector : L)
    (hdist : ∀ a b, (prov.distance a b).isSome = true)
    (hcost : ∀ v p, p ∈ prov.get_adjacent_vectors v → p.2.isSome = true) :
    ∀ (fuel : Nat) (heap explored : List (Node L)),
      (∀ m ∈ heap, (Node.total m).isSome = true) →
      (∀ m ∈ heap,
        m.previous_node_index = 0 ∨ m.previous_node_index < explored.length) →
      (∀ i n, explored.get? i = some n →
        n.previous_node_index = 0 ∨ n.previous_node_index < i) →
      searchLoop prov goal_local_vector fuel heap explored ≠ .panic := by
  intro fuel
  induction fuel with
  | zero => intro heap explored _ _ _; simp [searchLoop]
  | succ fuel ih =>
    intro heap explored hfin hprev hinv
    rw [searchLoop]
    cases heap with
    | nil => simp [heapPop]
    | cons x xs =>
      obtain ⟨n, rest, hgo, hn, hrest⟩ :=
        heapPopGo_ok xs x [] (hfin x (by simp)) (fun m hm => hfin m (by simp [hm]))
      have hpop : heapPop (x :: xs) = .ok (some (n, rest)) := by
        rw [heapPop, hgo]; rfl
      rw [hpop]
      dsimp only
      have hn' : n ∈ x :: xs := by simpa using hn
      have hrest' : ∀ m ∈ rest, m ∈ x :: xs := fun m hm => by simpa using hrest m hm
      by_cases hgoal : n.local_vector = goal_local_vector
      · rw [if_pos hgoal]
        obtain ⟨l, hl⟩ := reconstruct_ok prov explored hinv explored.length (le_refl _)
          (explored.length + 1) n (le_refl _) (hprev n hn')
        rw [hl]
        simp
      · rw [if_neg hgoal]
        obtain ⟨hidx, hgrow, hkeep, hinvnew⟩ := insertFull_spec explored n
        apply ih
        · intro m hm
          rcases List.mem_append.mp hm with hm | hm
          · exact hfin m (hrest' m hm)
          · obtain ⟨hc, he, -⟩ := expand_mem prov goal_local_vector n
              (insertFull explored n).2 (insertFull explored n).1 hdist hcost m hm
            exact total_isSome m hc he
        · intro m hm
          rcases List.mem_append.mp hm with hm | hm
          · rcases hprev m (hrest' m hm) with h | h
            · exact Or.inl h
            · exact Or.inr (lt_of_lt_of_le h hgrow)
          · obtain ⟨-, -, hp⟩ := expand_mem prov goal_local_vector n
              (insertFull explored n).2 (insertFull explored n).1 hdist hcost m hm
            exact Or.inr (hp ▸ hidx)
        · exact hinvnew hinv (hprev n hn')

/-! ## Claim theorems -/

/-- A small concrete grid (`new(2, 2)` with the voxel `(1, 0, 1)` marked) used
to instantiate the round-trip theorem. -/
def g4 : Grid := ((Grid.new 2 2).set_obstacle 1 0 1).getD (Grid.new 2 2)

/-- A file whose header declares `width = 1`, `height = 2 ^ 24 + 1` and whose
body has `2097152` bytes — one byte fewer than
`ceil(width * width * height / 8) = 2097153`. -/
def c8file : List Nat := be32 1 ++ (be32 (2 ^ 24 + 1) ++ List.replicate 2097152 0)

/-- Three concrete frontier nodes with total priorities `3`, `1`, `2`. -/
def na : Node ℤ := ⟨0, some 2, some 1, 0⟩

/-- See `na`. -/
def nb : Node ℤ := ⟨1, some 0, some 1, 0⟩

/-- See `na`. -/
def nc : Node ℤ := ⟨2, some 1, some 1, 0⟩

/-- A `FolderGridProvider` with an empty folder: every chunk file is
missing. -/
def p9 : FolderGridProvider where
  axis_to_grid_id := fun _ => 0
  grid_id_to_axis := fun _ => 0
  grid_file_name := fun _ _ => "missing"
  files := fun _ => none

section ClaimTheorems

attribute [local semireducible] Rat.add Rat.sub Rat.mul Rat.inv

/-- C1 (code evaluated at the failing input): expanding a popped node
`current` with cumulative cost `1`, the node built for a neighbour of step
cost `1` carries cost `1` — the raw step cost — although
`current.cost + step_cost = 2`: the guard `adjacent_node.cost > new_cost`
cannot fire when `current.cost ≥ 0`, so the frontier node does not carry the
cumulative cost the claim (and the spec's `new_cost` sentence) describes. -/
theorem adjacent_node_cost_not_cumulative :
    (mkAdjacentNode (L := ℤ) ⟨1, some 1, some 1, 0⟩ 2 (some 1) (some 0) 1).cost = some 1 ∧
      fadd (some 1) (some 1) = some 2 ∧ (some (1 : ℚ) ≠ some (2 : ℚ)) := by
  refine ⟨by decide, by decide, by decide⟩

/-- C2 (counterexample): on the straight-line provider from start `0` to goal
`2`, `find_path` succeeds with the path `[1, 2]`, whose first point is `1`,
not the resolved start location `0` — the reconstruction stops at the node
whose back-pointer is the sentinel `0` without ever appending the start node
itself. -/
theorem path_head_is_not_start :
    find_path 5 (0 : ℤ) 2 chainProv = Outcome.ok [1, 2] ∧
      chainProv.get_local_vector 0 = some 0 ∧
      chainProv.to_global_vector 0 = 0 ∧ (1 : ℤ) ≠ 0 := by
  refine ⟨by decide, by decide, by decide, by decide⟩

/-- C2 (amended): every successful `find_path` call returns a non-empty
sequence obtained by following back-pointers from the goal node to the node
whose back-pointer is the sentinel index `0` and reversing: its last point is
the resolved goal location mapped through `to_global_vector`, and its first
point is the global vector of a node whose back-pointer is the sentinel `0`
(the first expansion step out of the start — the start point itself is not
part of the sequence unless the start resolves to the goal). -/
theorem find_path_success_shape {L G : Type} [DecidableEq L] (fuel : Nat)
    (start goal : G) (prov : Provider L G) (path : List G)
    (hok : find_path fuel start goal prov = .ok path) :
    ∃ goal_local_vector : L,
      prov.get_local_vector goal = some goal_local_vector ∧
        path ≠ [] ∧
        path.getLast? = some (prov.to_global_vector goal_local_vector) ∧
        ∃ m : Node L, m.previous_node_index = 0 ∧
          path.head? = some (prov.to_global_vector m.local_vector) := by
  unfold find_path at hok
  cases hs : prov.get_local_vector start with
  | none =>
    rw [hs] at hok
    cases hg2 : prov.get_local_vector goal with
    | none => rw [hg2] at hok; exact absurd hok (by simp)
    | some gL => rw [hg2] at hok; exact absurd hok (by simp)
  | some sL =>
    rw [hs] at hok
    cases hg2 : prov.get_local_vector goal with
    | none => rw [hg2] at hok; exact absurd hok (by simp)
    | some gL =>
      rw [hg2] at hok
      dsimp only at hok
      obtain ⟨cur, ex, l, hcur, hrec, rfl⟩ :=
        searchLoop_ok_shape prov gL fuel _ _ path hok
      obtain ⟨m, hm0, hml⟩ := reconstruct_last prov ex _ cur l hrec
      obtain ⟨t, rfl⟩ := reconstruct_head prov ex _ cur l hrec
      refine ⟨gL, rfl, by simp, ?_, m, hm0, ?_⟩
      · rw [List.getLast?_reverse, ← hcur]
        rfl
      · rw [List.head?_reverse]
        exact hml

/-- C2 (amended, witness): instantiating the shape theorem at the concrete
run to goal `2`: the path `[1, 2]` ends at the goal's global vector and
starts at the global vector of a node with back-pointer `0`. -/
theorem find_path_success_shape_witness :
    ∃ goal_local_vector : ℤ,
      chainProv.get_local_vector 2 = some goal_local_vector ∧
        ([1, 2] : List ℤ) ≠ [] ∧
        ([1, 2] : List ℤ).getLast? = some (chainProv.to_global_vector goal_local_vector) ∧
        ∃ m : Node ℤ, m.previous_node_index = 0 ∧
          ([1, 2] : List ℤ).head? = some (chainProv.to_global_vector m.local_vector) :=
  find_path_success_shape 5 0 2 chainProv [1, 2] (by decide)

/-- C3 (code evaluated at the failing input): the bounds assertion of
`Grid::index` checks `z` against `width`, not `height`.  On a grid with
`width = 2`, `height = 3`, the in-range call `is_obstacle(0, 0, 2)`
(`z = 2 < height`) aborts (`none`); on a grid with `width = 3`, `height = 2`,
the out-of-range call `is_obstacle(0, 0, 2)` (`z = 2 ≥ height`) does not
abort and silently answers `false`. -/
theorem bounds_assertion_checks_z_against_width :
    (Grid.new 2 3).is_obstacle 0 0 2 = none ∧
      (Grid.new 3 2).is_obstacle 0 0 2 = some false := by
  refine ⟨by decide, by decide⟩

/-- C5: the grid built by `new(3, 3)` with `set_obstacle(1, 1, 1)` and
`set_obstacle(2, 2, 2)` exports to exactly the 12 bytes
`00 00 00 03 | 00 00 00 03 | 00 20 00 04` — big-endian headers and LSB-first
bit packing under the flattening index `x + width * (y + width * z)` (bits 13
and 26). -/
theorem grid_export_exact_bytes :
    (((Grid.new 3 3).set_obstacle 1 1 1).bind fun g => g.set_obstacle 2 2 2).map
        Grid.exportBytes =
      some [0, 0, 0, 3, 0, 0, 0, 3, 0, 32, 0, 4] := by
  decide

/-- C7 (counterexample): with the NaN-distance provider, `find_path` from `0`
to `5` aborts: after the start node is expanded, the frontier holds two nodes
whose total priorities are NaN, and the `Node` comparison's
`partial_cmp(..).unwrap()` panics. -/
theorem find_path_panics_on_nan :
    find_path 2 (0 : ℤ) 5 nanProv = Outcome.panic := by
  decide

/-- C10: on provider `p10` the world point `(3, -1, 1)` has local offset
`grid_start_x - vector.x = 0 - 3 = -3 < 0`; the rounded negative value
saturates to `0` under the `as u32` cast, and the query silently reads the
chunk's voxel at `x = 0` (here obstructed: it answers exactly what
`Grid::is_obstacle 0 1 1` answers on the imported chunk, namely `true`)
rather than rejecting the point. -/
theorem negative_offset_saturates_to_zero :
    p10.grid_id_to_axis (p10.axis_to_grid_id 3) - 3 < 0 ∧
      f32toU32 (rustRound (p10.grid_id_to_axis (p10.axis_to_grid_id 3) - 3)) = 0 ∧
      p10.is_obstacle 3 (-1) 1 =
        ((Grid.importBytes g10bytes).bind fun g => g.is_obstacle 0 1 1) ∧
      p10.is_obstacle 3 (-1) 1 = some true := by
  refine ⟨by decide, by decide, by decide, by decide⟩

/-- C4: for every grid whose bit array has the padded length the constructor
establishes (and whose `u32` dimensions are in range), importing the bytes
produced by export yields the grid back, and in particular `is_obstacle`
agrees with the original on every voxel with `x, y < width`, `z < height`. -/
theorem grid_roundtrip (g : Grid)
    (hlen : g.data.length = paddedBits ((g.width * g.width * g.height) % 2 ^ 32))
    (hw : g.width < 2 ^ 32) (hh : g.height < 2 ^ 32) :
    Grid.importBytes (Grid.exportBytes g) = some g ∧
      ∀ x y z, x < g.width → y < g.width → z < g.height →
        (Grid.importBytes (Grid.exportBytes g)).map (fun g2 => g2.is_obstacle x y z) =
          some (g.is_obstacle x y z) := by
  obtain ⟨w, h, data⟩ := g
  simp only at hlen hw hh
  obtain ⟨hblen, hbits⟩ :=
    bitsToBytes_spec (gridBytes ((w * w * h) % 2 ^ 32)) data (by rw [hlen]; rfl)
  have himp : Grid.importBytes (Grid.exportBytes ⟨w, h, data⟩) = some ⟨w, h, data⟩ := by
    show Grid.importBytes (be32 w ++ (be32 h ++ bitsToBytes data)) = _
    rw [importBytes_spec w h hw hh]
    rw [hblen, if_neg (lt_irrefl _), ← hblen, List.take_length, hbits]
  exact ⟨himp, fun x y z _ _ _ => by rw [himp]; rfl⟩

/-- C4 (witness): instantiating the round-trip theorem at the concrete grid
`new(2, 2)` with the voxel `(1, 0, 1)` marked obstructed. -/
theorem grid_roundtrip_witness :
    Grid.importBytes (Grid.exportBytes g4) = some g4 ∧ g4.is_obstacle 1 0 1 = some true :=
  ⟨(grid_roundtrip g4 (by decide) (by decide) (by decide)).1, by decide⟩

/-- C7 (amended): whenever the provider's heuristic distances and step costs
are never NaN, `find_path` never aborts the process: after any number of loop
iterations the outcome is `Ok`, `Err(NoPath)`, `Err(UnresolvedGlobalVector)`
or a still-running search, never a panic — the `Node` comparison's
`partial_cmp` unwrap and the `reconstruct_path` `get_index` unwrap are
unreachable.  (With NaN costs the comparison unwrap is reachable, see the
counterexample; and with an unbounded search space the loop need not
terminate, as the spec itself notes.) -/
theorem find_path_no_panic {L G : Type} [DecidableEq L] (prov : Provider L G)
    (hdist : ∀ a b, (prov.distance a b).isSome = true)
    (hcost : ∀ v p, p ∈ prov.get_adjacent_vectors v → p.2.isSome = true)
    (start goal : G) (fuel : Nat) :
    find_path fuel start goal prov ≠ .panic := by
  unfold find_path
  cases hs : prov.get_local_vector start with
  | none => cases prov.get_local_vector goal <;> simp
  | some sL =>
    cases hg : prov.get_local_vector goal with
    | none => simp
    | some gL =>
      dsimp only
      apply searchLoop_no_panic prov gL hdist hcost fuel _ []
      · intro m hm
        rw [List.mem_singleton] at hm
        subst hm
        exact total_isSome _ rfl (hdist sL gL)
      · intro m hm
        rw [List.mem_singleton] at hm
        subst hm
        exact Or.inl rfl
      · intro i nn hnn
        exact absurd hnn (by simp)


/-- C7 (amended, witness): the straight-line provider has finite distances
and step costs, so its runs never panic. -/
theorem find_path_no_panic_witness :
    find_path 3 (0 : ℤ) 2 chainProv ≠ Outcome.panic :=
  find_path_no_panic chainProv (fun _ _ => rfl)
    (fun v p hp => by rw [List.mem_singleton.mp hp]; rfl) 0 2 3

/-- C8 (amended): on a file `header(width) ++ header(height) ++ body`,
`Grid::import` reads the two big-endian `u32` headers and then exactly
`gridBytes` body bytes, where `gridBytes` is the `f32`-computed
`(length as f32 / 8.0).ceil()` count; it fails with an I/O error exactly when
the body is shorter than that count, or when the file cannot even supply the
8 header bytes.  The `f32` count agrees with the exact
`ceil(width * width * height / 8)` whenever `width * width * height ≤ 2 ^ 24`
(beyond that the cast may round, see the counterexample). -/
theorem importBytes_reads (w h : Nat) (hw : w < 2 ^ 32) (hh : h < 2 ^ 32)
    (body : List Nat) :
    (Grid.importBytes (be32 w ++ (be32 h ++ body)) =
        if body.length < gridBytes ((w * w * h) % 2 ^ 32) then none
        else some ⟨w, h, bytesToBits (body.take (gridBytes ((w * w * h) % 2 ^ 32)))⟩) ∧
      (w * w * h ≤ 2 ^ 24 → gridBytes ((w * w * h) % 2 ^ 32) = (w * w * h + 7) / 8) ∧
      ∀ file : List Nat, file.length < 8 → Grid.importBytes file = none := by
  refine ⟨importBytes_spec w h hw hh body, ?_, ?_⟩
  · intro hsmall
    have hlt : w * w * h < 2 ^ 32 := lt_of_le_of_lt hsmall (by norm_num)
    rw [Nat.mod_eq_of_lt hlt]
    unfold gridBytes f32round
    rw [if_pos hsmall]
  · intro file hfile
    unfold Grid.importBytes
    cases hr1 : readBE32 file with
    | none => rfl
    | some p =>
      obtain ⟨n, r1⟩ := p
      have hr1len : r1.length = file.length - 4 := readBE32_length file n r1 hr1
      dsimp only
      rw [readBE32_short r1 (by omega)]

/-- C8 (amended, witness): the import equation instantiated at a concrete
in-range header (`width = 2`, `height = 3`, one body byte, too short since
`ceil(12 / 8) = 2`), where the `f32` byte count is exact. -/
theorem importBytes_reads_witness :
    Grid.importBytes (be32 2 ++ (be32 3 ++ [0])) = none ∧
      gridBytes ((2 * 2 * 3) % 2 ^ 32) = (2 * 2 * 3 + 7) / 8 := by
  obtain ⟨h1, h2, _⟩ := importBytes_reads 2 3 (by norm_num) (by norm_num) [0]
  refine ⟨?_, h2 (by norm_num)⟩
  rw [h1]
  decide

/-- C8 (counterexample): the file `c8file` has `8 + 2097152` bytes, which is
one byte fewer than `8 + ceil(width * width * height / 8) = 8 + 2097153` for
its header `width = 1`, `height = 2 ^ 24 + 1`; the claim mandates an I/O
error, yet import succeeds: `2 ^ 24 + 1` rounds down to `2 ^ 24` in the
`length as f32` cast, so the code reads only `2097152` body bytes. -/
theorem import_succeeds_on_file_shorter_than_exact_ceil :
    (Grid.importBytes c8file).isSome = true ∧
      c8file.length + 1 = 8 + (1 * 1 * (2 ^ 24 + 1) + 7) / 8 := by
  constructor
  · rw [c8file, importBytes_spec 1 (2 ^ 24 + 1) (by norm_num) (by norm_num)]
    rw [List.length_replicate,
      show gridBytes ((1 * 1 * (2 ^ 24 + 1)) % 2 ^ 32) = 2097152 from by decide]
    rw [if_neg (lt_irrefl _)]
    rfl
  · rw [c8file, List.length_append, List.length_append, List.length_replicate]
    norm_num [be32]

/-- C9: fail-open chunk lookup.  Whenever the chunk import of a world point
fails (missing or unreadable file), `FolderGridProvider::is_obstacle`
answers `false` without propagating an error; and whenever the import
succeeds but the point's vertical coordinate lies outside
`[0, chunk.height]`, it likewise answers `false`. -/
theorem chunk_lookup_fail_open (p : FolderGridProvider) (vx vy vz : ℚ) :
    (chunkImport p vx vy = none → p.is_obstacle vx vy vz = some false) ∧
      ∀ g : Grid, chunkImport p vx vy = some g → ¬(0 ≤ vz ∧ vz ≤ (g.height : ℚ)) →
        p.is_obstacle vx vy vz = some false := by
  constructor
  · intro hmiss
    unfold FolderGridProvider.is_obstacle
    rw [hmiss]
  · intro g hg hz
    unfold FolderGridProvider.is_obstacle
    rw [hg]
    dsimp only
    rw [if_neg hz]

/-- C9 (witness): on the empty-folder provider every query answers `false`;
on the one-chunk provider `p10` a query above the chunk's height answers
`false`. -/
theorem chunk_lookup_fail_open_witness :
    p9.is_obstacle 1 2 3 = some false ∧ p10.is_obstacle 3 (-1) 5 = some false :=
  ⟨(chunk_lookup_fail_open p9 1 2 3).1 rfl,
    (chunk_lookup_fail_open p10 3 (-1) 5).2 ⟨2, 2, bytesToBits [64]⟩ (by decide)
      (by decide)⟩

/-- C6: the frontier behaves as a min-heap on the total priority
`cost + estimated_cost`.  Every successful pop returns a member of the
frontier whose total priority is least among all nodes currently in it; and
the `Node` ordering indeed reverses the numeric comparison — a node is
*greater* in the heap order (`nodeCmp a b = lt`, i.e. `a < b`) exactly when
its total priority is numerically larger, so the max-heap `BinaryHeap`
surfaces the numerically least total. -/
theorem frontier_pop_is_min {L : Type} (heap : List (Node L)) (n : Node L)
    (rest : List (Node L))
    (hfin : ∀ m ∈ heap, (Node.total m).isSome = true)
    (hpop : heapPop heap = .ok (some (n, rest))) :
    (n ∈ heap ∧
        ∀ m ∈ heap, ∀ qn qm, Node.total n = some qn → Node.total m = some qm →
          qn ≤ qm) ∧
      ∀ (a b : Node L) (qa qb : ℚ), Node.total a = some qa → Node.total b = some qb →
        (nodeCmp a b = some Ordering.lt ↔ qb < qa) := by
  constructor
  · match heap, hpop with
    | x :: xs, hpop =>
      have hgo : heapPopGo x [] xs = .ok (n, rest) := by
        cases hx : heapPopGo x [] xs with
        | error e => rw [heapPop, hx] at hpop; exact absurd hpop (by simp [Except.map])
        | ok p =>
          rw [heapPop, hx] at hpop
          simp only [Except.map, Except.ok.injEq, Option.some.injEq] at hpop
          rw [hpop]
      obtain ⟨hmem, hmin⟩ := heapPopGo_min xs x [] rest n (hfin x (by simp))
        (fun m hm => hfin m (List.mem_cons_of_mem _ hm)) hgo
      refine ⟨hmem.elim (fun e => e ▸ List.mem_cons_self x xs) (List.mem_cons_of_mem x), ?_⟩
      intro m hm
      rcases List.mem_cons.mp hm with rfl | hm'
      · exact hmin m (Or.inl rfl)
      · exact hmin m (Or.inr hm')
  · intro a b qa qb hqa hqb
    unfold nodeCmp fcmp
    rw [hqa, hqb]
    dsimp only
    constructor
    · intro h
      by_cases hba : qb < qa
      · exact hba
      · rw [if_neg hba] at h
        by_cases hab : qa < qb
        · rw [if_pos hab] at h; exact absurd (Option.some.inj h) (by simp)
        · rw [if_neg hab] at h; exact absurd (Option.some.inj h) (by simp)
    · intro h
      rw [if_pos h]

/-- C6 (witness): on the concrete frontier `[na, nb, nc]` (total priorities
`3`, `1`, `2`) the pop returns `nb`, the node of least total priority. -/
theorem frontier_pop_is_min_witness :
    (nb ∈ [na, nb, nc] ∧
        ∀ m ∈ [na, nb, nc], ∀ qn qm, Node.total nb = some qn → Node.total m = some qm →
          qn ≤ qm) ∧
      ∀ (a b : Node ℤ) (qa qb : ℚ), Node.total a = some qa → Node.total b = some qb →
        (nodeCmp a b = some Ordering.lt ↔ qb < qa) :=
  frontier_pop_is_min [na, nb, nc] nb [na, nc] (by decide) rfl

end ClaimTheorems

end FlyingPathfinding
